import Mathlib

/-!
Verification development for the iso_assist retrieval-augmented QA pipeline.

The repository's backend pipeline is recorded in
src/STATUS_DOCS/RAG_AND_API_PROCESSING_DOCUMENTATION.md and
src/STATUS_DOCS/RAG_DEVELOPMENT_ISSUES_FOUND.md (the Python functions
extract_citations, process_query, vector_search, deduplicate_sources), and the
front-end text-cleanup functions live in the TypeScript sources
(SourceList.tsx / FormattedAnswer.tsx cleanExcerpt / cleanText,
SourceCard.tsx cleanExcerpt, AnswerDisplay formatAnswerContent).

Strings are embedded as List Char (JavaScript / Python string indices are
modelled as character indices; all inputs of interest are ASCII, and the
character classes of the regexes are modelled by their ASCII semantics).
Recursive scans are written with an explicit fuel argument equal to the
input length, which always suffices because every step consumes at least
one character; this keeps every definition computable by kernel reduction.
-/

/-- ASCII semantics of the regex character class \w (word character). -/
def isWordChar (c : Char) : Bool := c.isAlphanum || c = '_'

/-- ASCII semantics of the regex character class \s (whitespace). -/
def isSpaceChar (c : Char) : Bool :=
  c = ' ' || c = '\t' || c = '\n' || c = '\r' || c.val = 11 || c.val = 12

/-- Strip a literal pattern from the front of a list: returns the remainder
when the pattern is a leading segment, none otherwise. -/
def stripPre : List Char → List Char → Option (List Char)
  | [], s => some s
  | _ :: _, [] => none
  | a :: w, b :: s => if a = b then stripPre w s else none

/-- A response-facing citation record, as built by extract_citations in
src/STATUS_DOCS/RAG_AND_API_PROCESSING_DOCUMENTATION.md: a source title and a
character span into the answer text. -/
structure Citation where
  title : List Char
  start_idx : Nat
  end_idx : Nat
deriving DecidableEq, Repr

/-- The scan of the Python regex `\[(.*?)\]` after an opening bracket: collect
the inner text up to the first closing bracket.  The lazy `.*?` matches any
character except a newline, so a newline before the first closing bracket
means no match at this opening bracket. -/
def scanInner : List Char → Option (List Char × List Char)
  | [] => none
  | c :: rest =>
    if c = ']' then some ([], rest)
    else if c = '\n' then none
    else
      match scanInner rest with
      | some (inner, r) => some (c :: inner, r)
      | none => none

/-- The marker loop of extract_citations: `re.finditer(r'\[(.*?)\]', text)`
with `start = match.start() - offset` and `end = match.end() - offset`, where
`offset` is initialised to 0 and never changed in the source.  `pos` is the
absolute index of the head of `s` in the original text.  Fuel at least the
length of `s` always suffices. -/
def findMarkersF (fuel : Nat) (s : List Char) (pos : Nat) : List Citation :=
  match fuel with
  | 0 => []
  | fuel + 1 =>
    match s with
    | [] => []
    | c :: rest =>
      if c = '[' then
        match scanInner rest with
        | some (inner, rest') =>
          { title := inner, start_idx := pos, end_idx := pos + inner.length + 2 }
            :: findMarkersF fuel rest' (pos + inner.length + 2)
        | none => findMarkersF fuel rest (pos + 1)
      else findMarkersF fuel rest (pos + 1)

/-- extract_citations from
src/STATUS_DOCS/RAG_AND_API_PROCESSING_DOCUMENTATION.md §1.4: the function
receives only the raw answer text (no sources parameter), sets
`modified_text = text`, and appends one Citation per bracketed marker found
by `re.finditer(r'\[(.*?)\]', text)`; the text itself is returned unchanged
and `offset` stays 0. -/
def extract_citations (text : List Char) : List Char × List Citation :=
  (text, findMarkersF text.length text 0)

/-- How a citation's title is rendered inside the clean text returned by
extract_citations: the marker is kept verbatim, so the rendering convention
of this extractor is the bracketed title. -/
def renderedTitle (c : Citation) : List Char :=
  ('[' :: c.title) ++ [']']

/-- A retrieved chunk row as produced by vector_search
(src/STATUS_DOCS/RAG_AND_API_PROCESSING_DOCUMENTATION.md §1.2): chunk id,
owning document id, document metadata and the cosine distance
`e.embedding <=> query_vector` computed by the index for the current query
(the vector arithmetic of the `<=>` operator is abstracted into the per-row
rational distance value). -/
structure RChunk where
  id : Nat
  document_id : Nat
  title : List Char
  url : List Char
  content : List Char
  distance : ℚ
deriving DecidableEq, Repr

/-- Accumulator loop of deduplicate_sources
(src/STATUS_DOCS/RAG_DEVELOPMENT_ISSUES_FOUND.md §4.1): `unique_sources` is an
insertion-ordered dict keyed by `chunk['metadata']['document_id']`; the first
chunk seen for a document id creates the entry, later chunks with the same id
fall into the merge branch (its body, merging relevance and highlights into
the existing entry, is elided in the source; it adds no new dict key, so it is
modelled as keeping the stored entry). -/
def dedupGo (acc : List RChunk) : List RChunk → List RChunk
  | [] => acc
  | c :: rest =>
    if acc.any (fun s => s.document_id == c.document_id) then dedupGo acc rest
    else dedupGo (acc ++ [c]) rest

/-- deduplicate_sources from src/STATUS_DOCS/RAG_DEVELOPMENT_ISSUES_FOUND.md
§4.1: one output source per distinct document id, in first-seen order. -/
def deduplicate_sources (chunks : List RChunk) : List RChunk :=
  dedupGo [] chunks

/-- A source entry of the API response, as assembled by process_query
(src/STATUS_DOCS/RAG_AND_API_PROCESSING_DOCUMENTATION.md §2.2). -/
structure ResponseSource where
  title : List Char
  url : List Char
  content : List Char
  relevance : ℚ
deriving DecidableEq, Repr

/-- The source dict built per chunk by process_query
(src/STATUS_DOCS/RAG_AND_API_PROCESSING_DOCUMENTATION.md §2.2):
`'relevance': 1 - chunk['distance']`, with no clamping in the source. -/
def formatSource (c : RChunk) : ResponseSource :=
  { title := c.title, url := c.url, content := c.content
    relevance := 1 - c.distance }

/-- Relational semantics of the vector_search SQL
(src/STATUS_DOCS/RAG_AND_API_PROCESSING_DOCUMENTATION.md §1.2):
`ORDER BY e.embedding <=> query LIMIT k` returns some list of rows drawn from
the joined table that is sorted by ascending distance, has length
`min k (number of rows)`, and contains only rows whose distance is at most
the distance of every row left out.  The ORDER BY clause has a single sort
key, so the relative order of equal-distance rows is not determined. -/
def isVectorSearchResult (table : List RChunk) (k : Nat) (r : List RChunk) : Prop :=
  r.length = min k table.length ∧
  List.Pairwise (fun a b => a.distance ≤ b.distance) r ∧
  ∃ rest, (r ++ rest).Perm table ∧ ∀ a ∈ r, ∀ b ∈ rest, a.distance ≤ b.distance

/-- The ordering claimed by the spec for retrieval output: ascending distance
with ties broken by chunk id ascending. -/
def tieOrderedById (r : List RChunk) : Prop :=
  List.Chain'
    (fun a b => a.distance < b.distance ∨ (a.distance = b.distance ∧ a.id ≤ b.id)) r

/-- The word-boundary test \b at the end of the duplicate-word pattern: the
character before the boundary is the last character of a repeated word (a word
character), so the boundary holds exactly when the remainder is empty or
starts with a non-word character. -/
def boundaryAfter : List Char → Bool
  | [] => true
  | c :: _ => !(isWordChar c)

/-- The `\1+\b` tail of the regex `\b(\w+)\s+\1+\b` used by cleanExcerpt in
src/ercot-rag-frontend/app/components/rag/SourceList.tsx and cleanText in
FormattedAnswer.tsx: consume one or more consecutive copies of the captured
word `w`, as many as possible, backtracking to fewer copies until the word
boundary after the last copy holds.  Returns the remainder after the match.
Fuel at least the length of `s` suffices, since each copy is nonempty. -/
def stripCopiesF (fuel : Nat) (w s : List Char) : Option (List Char) :=
  match fuel with
  | 0 => none
  | fuel + 1 =>
    if w.isEmpty then none
    else
      match stripPre w s with
      | none => none
      | some s' =>
        match stripCopiesF fuel w s' with
        | some r => some r
        | none => if boundaryAfter s' then some s' else none

/-- One match attempt of `\b(\w+)\s+\1+\b` at the current position (the caller
checks the initial word boundary): the greedy `(\w+)` is the maximal word run,
`\s+` the maximal nonempty whitespace run (shorter runs cannot be followed by
a word character), then one or more copies of the captured word ending at a
word boundary.  Returns the captured word and the remainder after the match. -/
def tryMatchAt (s : List Char) : Option (List Char × List Char) :=
  let w := s.takeWhile isWordChar
  let r1 := s.dropWhile isWordChar
  let sp := r1.takeWhile isSpaceChar
  let r2 := r1.dropWhile isSpaceChar
  if w.isEmpty then none
  else if sp.isEmpty then none
  else
    match stripCopiesF r2.length w r2 with
    | some after => some (w, after)
    | none => none

/-- The global replace `text.replace(/\b(\w+)\s+\1+\b/g, '$1')` of
SourceList.tsx cleanExcerpt / FormattedAnswer.tsx cleanText: left-to-right
scan, each match replaced by its captured word, scanning resuming after the
match.  `prev` records whether the previous character of the original text is
a word character (for the leading \b).  Fuel at least the length of `s`
suffices, since every step consumes at least one character. -/
def dupReplaceF (fuel : Nat) (s : List Char) (prev : Bool) : List Char :=
  match fuel with
  | 0 => s
  | fuel + 1 =>
    match s with
    | [] => []
    | c :: rest =>
      if !prev && isWordChar c then
        match tryMatchAt (c :: rest) with
        | some (w, after) => w ++ dupReplaceF fuel after true
        | none => c :: dupReplaceF fuel rest (isWordChar c)
      else c :: dupReplaceF fuel rest (isWordChar c)

/-- Whether the duplicate-word pattern matches anywhere in `s` (same scan as
dupReplaceF, reporting only whether a match exists). -/
def hasDupMatch (s : List Char) (prev : Bool) : Bool :=
  match s with
  | [] => false
  | c :: rest =>
    if !prev && isWordChar c then
      match tryMatchAt (c :: rest) with
      | some _ => true
      | none => hasDupMatch rest (isWordChar c)
    else hasDupMatch rest (isWordChar c)

/-- cleanText from src/ercot-rag-frontend/app/components/rag/FormattedAnswer.tsx
(the same one-line duplicate-word collapse as cleanExcerpt in
SourceList.tsx): `text.replace(/\b(\w+)\s+\1+\b/g, '$1')`. -/
def cleanText (s : List Char) : List Char :=
  dupReplaceF s.length s false

/-- The literal ERCOT of the SourceCard excerpt regex. -/
def ercotWord : List Char := ['E', 'R', 'C', 'O', 'T']

/-- The `\s*` and following iterations of `(?:ERCOT\s*)+` after one ERCOT has
been consumed: greedily consume whitespace, then further `ERCOT\s*`
iterations while they match.  Fuel at least the length of `s` suffices. -/
def eatErcotRunF (fuel : Nat) (s : List Char) : List Char :=
  match fuel with
  | 0 => s
  | fuel + 1 =>
    let s1 := s.dropWhile isSpaceChar
    match stripPre ercotWord s1 with
    | some s2 => eatErcotRunF fuel s2
    | none => s1

/-- The global replace `excerpt.replace(/(?:ERCOT\s*)+/g, 'ERCOT')` of
cleanExcerpt in src/ercot-rag-frontend/app/components/rag/SourceCard.tsx
(also src/unnamed/part_009): every run of ERCOT repetitions, including the
whitespace after each repetition, collapses to a single ERCOT.  Fuel at least
the length of `s` suffices. -/
def ercotCollapseF (fuel : Nat) (s : List Char) : List Char :=
  match fuel with
  | 0 => s
  | fuel + 1 =>
    match s with
    | [] => []
    | c :: rest =>
      match stripPre ercotWord (c :: rest) with
      | some s1 => ercotWord ++ ercotCollapseF fuel (eatErcotRunF s1.length s1)
      | none => c :: ercotCollapseF fuel rest

/-- cleanExcerpt from src/ercot-rag-frontend/app/components/rag/SourceCard.tsx
(src/unnamed/part_009 lines 10-15): collapse repeated ERCOT runs, then
truncate to 150 characters plus an ellipsis when longer than 150. -/
def cleanExcerpt (s : List Char) : List Char :=
  let cleaned := ercotCollapseF s.length s
  if 150 < cleaned.length then cleaned.take 150 ++ ['.', '.', '.'] else cleaned

/-- Generic left-to-right global regex replace: at each position try the
matcher; on a match of `n > 0` consumed characters emit the replacement and
resume after the match, otherwise copy one character.  (None of the matchers
below can return n = 0; the guard only keeps the scan total.)  Fuel at least
the length of `s` suffices. -/
def replScan (fuel : Nat) (m : List Char → Option (Nat × List Char))
    (s : List Char) : List Char :=
  match fuel with
  | 0 => s
  | fuel + 1 =>
    match s with
    | [] => []
    | c :: rest =>
      match m (c :: rest) with
      | some (n, repl) =>
        if n = 0 then c :: replScan fuel m rest
        else repl ++ replScan fuel m (List.drop n (c :: rest))
      | none => c :: replScan fuel m rest

/-- As replScan, for matchers with a lookbehind: the matcher also receives the
reversed original text before the current position (JavaScript lookbehind
inspects the original string, not the partially built output). -/
def replScanP (fuel : Nat) (m : List Char → List Char → Option (Nat × List Char))
    (prev s : List Char) : List Char :=
  match fuel with
  | 0 => s
  | fuel + 1 =>
    match s with
    | [] => []
    | c :: rest =>
      match m prev (c :: rest) with
      | some (n, repl) =>
        if n = 0 then c :: replScanP fuel m (c :: prev) rest
        else
          repl ++ replScanP fuel m ((List.take n (c :: rest)).reverse ++ prev)
            (List.drop n (c :: rest))
      | none => c :: replScanP fuel m (c :: prev) rest

def strongOpen : List Char := "<strong>".data
def strongClose : List Char := "</strong>".data
def liOpen : List Char := "<li>".data
def liClose : List Char := "</li>".data
def olOpen : List Char := "<ol>".data
def olClose : List Char := "</ol>".data
def pOpen : List Char := ['<', 'p', '>']
def pClose : List Char := ['<', '/', 'p', '>']

/-- Whether `p` is a leading segment of `s`. -/
def startsWithL (p s : List Char) : Bool := (stripPre p s).isSome

/-- Whether `p` is a trailing segment of `s`. -/
def endsWithL (p s : List Char) : Bool := startsWithL p.reverse s.reverse

/-- Matcher for `/(<strong>[^:]*?)\s*:<\/strong>/g` → '$1</strong>'
(step 1 of both formatAnswerContent versions, src/unnamed/part_001 and
part_004): after a literal <strong>, the lazy `[^:]*?` runs to the first
colon, the greedy `\s*` claims the whitespace immediately before that colon,
and the colon must be followed by a literal </strong>. -/
def strongColonM (s : List Char) : Option (Nat × List Char) :=
  match stripPre strongOpen s with
  | none => none
  | some r =>
    let q := r.findIdx (fun c => c = ':')
    if q < r.length then
      match stripPre (':' :: strongClose) (r.drop q) with
      | some _ =>
        let pre := r.take q
        let tws := (pre.reverse.takeWhile isSpaceChar).length
        some (8 + q + 10, strongOpen ++ pre.take (pre.length - tws) ++ strongClose)
      | none => none
    else none

/-- Matcher for `/<\/li>\s*:/g` → '</li>' (src/unnamed/part_001 step 1). -/
def liColonM (s : List Char) : Option (Nat × List Char) :=
  match stripPre liClose s with
  | none => none
  | some r =>
    let k := (r.takeWhile isSpaceChar).length
    match r.drop k with
    | ':' :: _ => some (5 + k + 1, liClose)
    | _ => none

/-- Matcher for `/<\/?ol>/g` → '' (src/unnamed/part_004 step 2). -/
def olTagM (s : List Char) : Option (Nat × List Char) :=
  match stripPre olOpen s with
  | some _ => some (4, [])
  | none =>
    match stripPre olClose s with
    | some _ => some (5, [])
    | none => none

/-- Matcher for `/<\/?li>/g` → '' (src/unnamed/part_004 step 2). -/
def liTagM (s : List Char) : Option (Nat × List Char) :=
  match stripPre liOpen s with
  | some _ => some (4, [])
  | none =>
    match stripPre liClose s with
    | some _ => some (5, [])
    | none => none

/-- Matcher for `/\s+/g` → ' ' (src/unnamed/part_004 step 3). -/
def wsCollapseM (s : List Char) : Option (Nat × List Char) :=
  match s with
  | c :: _ =>
    if isSpaceChar c then some ((s.takeWhile isSpaceChar).length, [' ']) else none
  | [] => none

/-- The first occurrence of the literal `pat` in `s` reachable by the lazy
`.*?` (which matches no newline): its index, or none when a newline comes
first or there is no occurrence. -/
def findCloseSeq (pat : List Char) : List Char → Option Nat
  | [] => none
  | c :: rest =>
    match stripPre pat (c :: rest) with
    | some _ => some 0
    | none =>
      if c = '\n' || c = '\r' then none
      else (findCloseSeq pat rest).map (fun i => i + 1)

/-- Matcher for `/(?<!<\/ol>)\s*(\d+)\.\s+(<strong>.*?<\/strong>)/g` →
'<li>$1. $2</li>' (src/unnamed/part_001 step 2).  `prev` is the reversed text
before the match start; the lookbehind rejects a start immediately preceded by
</ol>.  `\s*` and `\d+` are the maximal runs at the current position (shorter
runs cannot be followed by a digit resp. a dot), `\s+` after the dot is a
maximal nonempty run, and the lazy `.*?` runs to the first </strong> with no
newline before it. -/
def numberedToLiM (prev s : List Char) : Option (Nat × List Char) :=
  if startsWithL olClose.reverse prev then none
  else
    let a := (s.takeWhile isSpaceChar).length
    let s1 := s.drop a
    let d := (s1.takeWhile Char.isDigit).length
    if d = 0 then none
    else
      match s1.drop d with
      | '.' :: s3 =>
        let b := (s3.takeWhile isSpaceChar).length
        if b = 0 then none
        else
          match stripPre strongOpen (s3.drop b) with
          | none => none
          | some s5 =>
            match findCloseSeq strongClose s5 with
            | none => none
            | some i =>
              some (a + d + 1 + b + 8 + i + 9,
                liOpen ++ s1.take d ++ ['.', ' '] ++ strongOpen ++ s5.take i
                  ++ strongClose ++ liClose)
      | _ => none

/-- One iteration `<li>.*?<\/li>\s*` of the list-wrapping pattern
(src/unnamed/part_001 step 2): its consumed length, or none. -/
def liBlockLen (s : List Char) : Option Nat :=
  match stripPre liOpen s with
  | none => none
  | some r =>
    match findCloseSeq liClose r with
    | none => none
    | some i =>
      some (4 + i + 5 + ((r.drop (i + 5)).takeWhile isSpaceChar).length)

/-- The greedy `(?:<li>.*?<\/li>\s*)+`: total length of the maximal nonempty
run of iterations.  Fuel at least the length of `s` suffices. -/
def liBlocksLenF (fuel : Nat) (s : List Char) : Option Nat :=
  match fuel with
  | 0 => none
  | fuel + 1 =>
    match liBlockLen s with
    | none => none
    | some n =>
      match liBlocksLenF fuel (s.drop n) with
      | some m => some (n + m)
      | none => some n

/-- Matcher for `/(?<!<ol>)((?:<li>.*?<\/li>\s*)+)/g` → '<ol>$1</ol>'
(src/unnamed/part_001 step 2). -/
def wrapLiInOlM (prev s : List Char) : Option (Nat × List Char) :=
  if startsWithL olOpen.reverse prev then none
  else
    match liBlocksLenF s.length s with
    | some n => some (n, olOpen ++ s.take n ++ olClose)
    | none => none

/-- Matcher for `/\n\n+/g` → '</p><p>' (src/unnamed/part_001 step 3). -/
def paraBreakM (s : List Char) : Option (Nat × List Char) :=
  match s with
  | '\n' :: '\n' :: _ =>
    some ((s.takeWhile (fun c => c = '\n')).length, pClose ++ pOpen)
  | _ => none

/-- Matcher for `/\n/g` → ' ' (src/unnamed/part_001 step 3). -/
def nlToSpaceM (s : List Char) : Option (Nat × List Char) :=
  match s with
  | '\n' :: _ => some (1, [' '])
  | _ => none

/-- JavaScript String.prototype.trim: drop whitespace from both ends. -/
def trimChars (s : List Char) : List Char :=
  ((s.dropWhile isSpaceChar).reverse.dropWhile isSpaceChar).reverse

/-- Step 4 of both formatAnswerContent versions: prepend <p> unless the text
already starts with it, then append </p> unless it already ends with it. -/
def ensureWrap (s : List Char) : List Char :=
  let s1 := if startsWithL pOpen s then s else pOpen ++ s
  if endsWithL pClose s1 then s1 else s1 ++ pClose

/-- formatAnswerContent from the AnswerDisplay iteration in
src/unnamed/part_001 lines 15-37: colon cleanup after bold headings and list
items, numbered-item wrapping into list markup, paragraph-break conversion,
newline collapsing is applied in source order, then the <p> wrapping, and the
result of `html.trim()` is returned. -/
def formatAnswerContent_v1 (html : List Char) : List Char :=
  let h1 := replScan html.length strongColonM html
  let h2 := replScan h1.length liColonM h1
  let h3 := replScanP h2.length numberedToLiM [] h2
  let h4 := replScanP h3.length wrapLiInOlM [] h3
  let h5 := replScan h4.length paraBreakM h4
  let h6 := replScan h5.length nlToSpaceM h5
  trimChars (ensureWrap h6)

/-- formatAnswerContent from the AnswerDisplay iteration in
src/unnamed/part_004 lines 15-31: colon cleanup after bold headings, removal
of <ol> and <li> tags, whitespace collapsing plus trim, then the <p>
wrapping; the wrapped text is returned unchanged. -/
def formatAnswerContent_v4 (html : List Char) : List Char :=
  let h1 := replScan html.length strongColonM html
  let h2 := replScan h1.length olTagM h1
  let h3 := replScan h2.length liTagM h2
  let h4 := trimChars (replScan h3.length wsCollapseM h3)
  ensureWrap h4

/-- The inner texts of the bracketed markers of a text, in order of
appearance: the same scan as findMarkersF, keeping only the titles.  Used to
state that extract_citations derives citation titles from the answer text
alone. -/
def markerTitlesF (fuel : Nat) (s : List Char) : List (List Char) :=
  match fuel with
  | 0 => []
  | fuel + 1 =>
    match s with
    | [] => []
    | c :: rest =>
      if c = '[' then
        match scanInner rest with
        | some (inner, rest') => inner :: markerTitlesF fuel rest'
        | none => markerTitlesF fuel rest
      else markerTitlesF fuel rest

/-- A concrete indexed row: chunk 1 of document 1 at distance 1. -/
def rowA : RChunk :=
  { id := 1, document_id := 1, title := [], url := [], content := [], distance := 1 }

/-- A concrete indexed row: chunk 2 of document 2, also at distance 1. -/
def rowB : RChunk :=
  { id := 2, document_id := 2, title := [], url := [], content := [], distance := 1 }

/-! ## Helper lemmas -/

theorem stripPre_eq_some {p s r : List Char} :
    stripPre p s = some r ↔ s = p ++ r := by
  induction p generalizing s with
  | nil => simp [stripPre]
  | cons a w ih =>
    cases s with
    | nil => simp [stripPre]
    | cons b t =>
      by_cases hab : a = b
      · subst hab
        simp [stripPre, ih]
      · simp [stripPre, hab, Ne.symm hab]

theorem startsWithL_self_append (p t : List Char) :
    startsWithL p (p ++ t) = true := by
  simp [startsWithL, Option.isSome_iff_exists]
  exact ⟨t, stripPre_eq_some.mpr rfl⟩

theorem startsWithL_append_right {p s : List Char} (t : List Char)
    (h : startsWithL p s = true) : startsWithL p (s ++ t) = true := by
  simp [startsWithL, Option.isSome_iff_exists] at h ⊢
  obtain ⟨r, hr⟩ := h
  exact ⟨r ++ t, stripPre_eq_some.mpr (by simp [stripPre_eq_some.mp hr])⟩

theorem scanInner_eq_some :
    ∀ {s inner r : List Char}, scanInner s = some (inner, r) →
      s = inner ++ ']' :: r := by
  intro s
  induction s with
  | nil => intro inner r h; simp [scanInner] at h
  | cons c rest ih =>
    intro inner r h
    by_cases hc : c = ']'
    · subst hc
      simp [scanInner] at h
      simp [h]
    · by_cases hn : c = '\n'
      · subst hn
        simp [scanInner, hc] at h
      · simp only [scanInner, if_neg hc, if_neg hn] at h
        cases hrec : scanInner rest with
        | none => rw [hrec] at h; simp at h
        | some pr =>
          obtain ⟨inner0, r0⟩ := pr
          rw [hrec] at h
          simp at h
          obtain ⟨h1, h2⟩ := h
          subst h2
          rw [← h1]
          simp [ih hrec]

theorem drop_append_right {α : Type} (A B : List α) (k : Nat) :
    (A ++ B).drop (A.length + k) = B.drop k := by
  induction A with
  | nil => simp
  | cons a A ih => simp [Nat.succ_add, ih]

theorem findMarkersF_mem :
    ∀ (fuel : Nat) (s : List Char) (pos : Nat), s.length ≤ fuel →
      ∀ c ∈ findMarkersF fuel s pos,
        pos ≤ c.start_idx ∧
        c.end_idx = c.start_idx + c.title.length + 2 ∧
        c.end_idx ≤ pos + s.length ∧
        (s.drop (c.start_idx - pos)).take (c.end_idx - c.start_idx) = renderedTitle c := by
  intro fuel
  induction fuel with
  | zero =>
    intro s pos _ c hc
    simp [findMarkersF] at hc
  | succ fuel ih =>
    intro s pos hlen c hc
    cases s with
    | nil => simp [findMarkersF] at hc
    | cons ch rest =>
      by_cases hch : ch = '['
      · subst hch
        cases hsc : scanInner rest with
        | some pr =>
          obtain ⟨inner, rest'⟩ := pr
          have hrest : rest = inner ++ ']' :: rest' := scanInner_eq_some hsc
          simp only [findMarkersF, if_pos rfl, hsc] at hc
          have hlens : rest.length = inner.length + 1 + rest'.length := by
            simp [hrest]
            omega
          rcases List.mem_cons.mp hc with hc | hc
          · subst hc
            refine ⟨Nat.le_refl _, rfl, by simp; omega, ?_⟩
            simp only [List.drop_zero, Nat.sub_self, Nat.add_sub_cancel_left]
            have hsplit : ('[' :: rest) = (('[' :: inner) ++ [']']) ++ rest' := by
              simp [hrest]
            rw [hsplit]
            have : pos + inner.length + 2 - pos = inner.length + 2 := by omega
            rw [this]
            have hA : (('[' :: inner) ++ [']']).length = inner.length + 2 := by simp
            rw [List.take_left' hA]
            simp [renderedTitle]
          · have hfuel : rest'.length ≤ fuel := by
              simp at hlen
              omega
            obtain ⟨g1, g2, g3, g4⟩ := ih rest' (pos + inner.length + 2) hfuel c hc
            refine ⟨by omega, g2, by simp; omega, ?_⟩
            have hsplit : ('[' :: rest) = (('[' :: inner) ++ [']']) ++ rest' := by
              simp [hrest]
            have hA : (('[' :: inner) ++ [']']).length = inner.length + 2 := by simp
            have hidx : c.start_idx - pos
                = (('[' :: inner) ++ [']']).length + (c.start_idx - (pos + inner.length + 2)) := by
              rw [hA]; omega
            rw [hsplit, hidx, drop_append_right]
            exact g4
        | none =>
          simp only [findMarkersF, if_pos rfl, hsc] at hc
          have hfuel : rest.length ≤ fuel := by simp at hlen; omega
          obtain ⟨g1, g2, g3, g4⟩ := ih rest (pos + 1) hfuel c hc
          refine ⟨by omega, g2, by simp; omega, ?_⟩
          have hidx : c.start_idx - pos = (c.start_idx - (pos + 1)) + 1 := by omega
          rw [hidx, List.drop_succ_cons]
          exact g4
      · simp only [findMarkersF, if_neg hch] at hc
        have hfuel : rest.length ≤ fuel := by simp at hlen; omega
        obtain ⟨g1, g2, g3, g4⟩ := ih rest (pos + 1) hfuel c hc
        refine ⟨by omega, g2, by simp; omega, ?_⟩
        have hidx : c.start_idx - pos = (c.start_idx - (pos + 1)) + 1 := by omega
        rw [hidx, List.drop_succ_cons]
        exact g4

theorem findMarkersF_start_ge :
    ∀ (fuel : Nat) (s : List Char) (pos : Nat) (c : Citation),
      c ∈ findMarkersF fuel s pos → pos ≤ c.start_idx := by
  intro fuel
  induction fuel with
  | zero => intro s pos c hc; simp [findMarkersF] at hc
  | succ fuel ih =>
    intro s pos c hc
    cases s with
    | nil => simp [findMarkersF] at hc
    | cons ch rest =>
      by_cases hch : ch = '['
      · subst hch
        cases hsc : scanInner rest with
        | some pr =>
          obtain ⟨inner, rest'⟩ := pr
          simp only [findMarkersF, if_pos rfl, hsc] at hc
          rcases List.mem_cons.mp hc with hc | hc
          · subst hc; exact Nat.le_refl _
          · have := ih rest' (pos + inner.length + 2) c hc
            omega
        | none =>
          simp only [findMarkersF, if_pos rfl, hsc] at hc
          have := ih rest (pos + 1) c hc
          omega
      · simp only [findMarkersF, if_neg hch] at hc
        have := ih rest (pos + 1) c hc
        omega

theorem findMarkersF_chain :
    ∀ (fuel : Nat) (s : List Char) (pos : Nat),
      List.Chain' (fun a b => a.start_idx ≤ b.start_idx ∧ a.end_idx ≤ b.start_idx)
        (findMarkersF fuel s pos) := by
  intro fuel
  induction fuel with
  | zero => intro s pos; simp [findMarkersF]
  | succ fuel ih =>
    intro s pos
    cases s with
    | nil => simp [findMarkersF]
    | cons ch rest =>
      by_cases hch : ch = '['
      · subst hch
        cases hsc : scanInner rest with
        | some pr =>
          obtain ⟨inner, rest'⟩ := pr
          simp only [findMarkersF, if_pos rfl, hsc]
          refine List.chain'_cons'.mpr ⟨?_, ih rest' (pos + inner.length + 2)⟩
          intro b hb
          have hmem : b ∈ findMarkersF fuel rest' (pos + inner.length + 2) :=
            List.mem_of_mem_head? hb
          have hge := findMarkersF_start_ge fuel rest' (pos + inner.length + 2) b hmem
          have h1 : pos ≤ b.start_idx := by omega
          have h2 : pos + inner.length + 2 ≤ b.start_idx := hge
          exact ⟨h1, h2⟩
        | none =>
          simp only [findMarkersF, if_pos rfl, hsc]
          exact ih rest (pos + 1)
      · simp only [findMarkersF, if_neg hch]
        exact ih rest (pos + 1)

theorem findMarkersF_map_title :
    ∀ (fuel : Nat) (s : List Char) (pos : Nat),
      (findMarkersF fuel s pos).map Citation.title = markerTitlesF fuel s := by
  intro fuel
  induction fuel with
  | zero => intro s pos; simp [findMarkersF, markerTitlesF]
  | succ fuel ih =>
    intro s pos
    cases s with
    | nil => simp [findMarkersF, markerTitlesF]
    | cons ch rest =>
      by_cases hch : ch = '['
      · subst hch
        cases hsc : scanInner rest with
        | some pr =>
          obtain ⟨inner, rest'⟩ := pr
          simp only [findMarkersF, markerTitlesF, if_pos rfl, hsc, List.map_cons]
          simp [ih]
        | none =>
          simp only [findMarkersF, markerTitlesF, if_pos rfl, hsc]
          exact ih rest (pos + 1)
      · simp only [findMarkersF, markerTitlesF, if_neg hch]
        exact ih rest (pos + 1)

/-! ## Claim theorems -/

/-- C1: for every raw answer text, every citation returned by
extract_citations satisfies 0 ≤ start_idx < end_idx ≤ length of the returned
clean text, and the clean text from start_idx to end_idx is exactly the
citation's rendered title text (this extractor's rendering convention keeps
the marker, so the rendering of a title in the clean text is the bracketed
title).  The extractor takes no sources argument, so the property holds for
every sources list. -/
theorem extract_citations_offsets_valid :
    ∀ (text : List Char), ∀ c ∈ (extract_citations text).2,
      c.start_idx < c.end_idx ∧
      c.end_idx ≤ (extract_citations text).1.length ∧
      ((extract_citations text).1.drop c.start_idx).take (c.end_idx - c.start_idx)
        = renderedTitle c := by
  intro text c hc
  obtain ⟨g1, g2, g3, g4⟩ :=
    findMarkersF_mem text.length text 0 (Nat.le_refl _) c hc
  refine ⟨by omega, ?_, ?_⟩
  · simpa [extract_citations] using g3
  · simpa [extract_citations] using g4

/-- C1 witness: the theorem evaluated on the answer "Hi [Doc]!" and its one
citation, with the membership hypothesis discharged by computation. -/
theorem extract_citations_offsets_valid_witness :
    (3 : Nat) < 8 ∧ 8 ≤ ("Hi [Doc]!".data).length ∧
    (("Hi [Doc]!".data).drop 3).take 5 = "[Doc]".data :=
  ⟨(extract_citations_offsets_valid "Hi [Doc]!".data ⟨"Doc".data, 3, 8⟩ (by decide)).1,
   (extract_citations_offsets_valid "Hi [Doc]!".data ⟨"Doc".data, 3, 8⟩ (by decide)).2.1,
   (extract_citations_offsets_valid "Hi [Doc]!".data ⟨"Doc".data, 3, 8⟩ (by decide)).2.2⟩

/-- C4: for every extractor output the citation list is sorted by start_idx
ascending and adjacent citations do not overlap (each end_idx is at most the
next start_idx). -/
theorem extract_citations_sorted_nonoverlap :
    ∀ (text : List Char),
      List.Chain' (fun a b => a.start_idx ≤ b.start_idx ∧ a.end_idx ≤ b.start_idx)
        (extract_citations text).2 := by
  intro text
  exact findMarkersF_chain text.length text 0

/-- C2 counterexample: a concrete run in which extraction emits a citation
titled "Ghost Doc" while the emitted source list (the deduplicated retrieval
for that query) contains only "Resource Handbook" — a dangling citation, so
the claim that every emitted citation's title matches some emitted source's
title is false.  extract_citations receives no sources at all. -/
theorem extract_citations_dangling_counterex :
    ((extract_citations "Costs rise [Ghost Doc] yearly.".data).2).map Citation.title
        = ["Ghost Doc".data] ∧
    (deduplicate_sources
        [{ id := 1, document_id := 1, title := "Resource Handbook".data,
           url := [], content := [], distance := 0 }]).map RChunk.title
        = ["Resource Handbook".data] ∧
    ("Ghost Doc".data : List Char) ≠ "Resource Handbook".data := by
  refine ⟨by decide, by decide, by decide⟩

/-- C2 amended: extraction performs no resolution against the sources list
(it never receives one); the titles of the emitted citations are exactly the
inner texts of the bracketed markers of the raw answer, in order, so a
citation's title matches an emitted source's title only when the generation
backend happened to emit a marker with that exact title. -/
theorem extract_citations_titles_from_text :
    ∀ (text : List Char),
      ((extract_citations text).2).map Citation.title = markerTitlesF text.length text := by
  intro text
  exact findMarkersF_map_title text.length text 0

/-- C3 counterexample: on the claim's own input, the marker does pass through
to the clean text with brackets intact, but the citation list is not empty —
extract_citations records a citation for the unresolved marker, so the claim
is false. -/
theorem extract_citations_passthrough_counterex :
    (extract_citations "See [Unknown Doc] for details".data).1
        = "See [Unknown Doc] for details".data ∧
    (extract_citations "See [Unknown Doc] for details".data).2 ≠ [] := by
  exact ⟨rfl, by decide⟩

/-- C3 amended: every marker passes through to the clean text verbatim (the
returned text is the raw text unchanged), and extraction still records one
citation per marker; in particular extract("See [Unknown Doc] for details")
returns the text unchanged together with one citation titled "Unknown Doc"
spanning the bracketed marker, rather than an empty citation list. -/
theorem extract_citations_passthrough_with_record :
    (∀ text : List Char, (extract_citations text).1 = text) ∧
    extract_citations "See [Unknown Doc] for details".data
      = ("See [Unknown Doc] for details".data,
         [{ title := "Unknown Doc".data, start_idx := 4, end_idx := 17 }]) := by
  exact ⟨fun _ => rfl, by decide⟩

theorem dedupGo_spec :
    ∀ (rest acc : List RChunk),
      ((acc.map (fun s => s.document_id)).Nodup) →
      ((dedupGo acc rest).map (fun s => s.document_id)).Nodup ∧
      ∀ d, d ∈ (dedupGo acc rest).map (fun s => s.document_id) ↔
            d ∈ acc.map (fun s => s.document_id) ∨
            d ∈ rest.map (fun s => s.document_id) := by
  intro rest
  induction rest with
  | nil =>
    intro acc hacc
    refine ⟨hacc, ?_⟩
    intro d
    simp [dedupGo]
  | cons c rest ih =>
    intro acc hacc
    by_cases hmem : c.document_id ∈ acc.map (fun s => s.document_id)
    · have hb : acc.any (fun s => s.document_id == c.document_id) = true := by
        rw [List.any_eq_true]
        simp only [List.mem_map] at hmem
        obtain ⟨s, hs, hds⟩ := hmem
        exact ⟨s, hs, by simp [hds]⟩
      obtain ⟨ihn, ihm⟩ := ih acc hacc
      rw [dedupGo, if_pos hb]
      refine ⟨ihn, ?_⟩
      intro d
      rw [ihm d]
      constructor
      · rintro (h | h)
        · exact Or.inl h
        · exact Or.inr (by simp [h])
      · rintro (h | h)
        · exact Or.inl h
        · simp only [List.map_cons, List.mem_cons] at h
          rcases h with h | h
          · exact Or.inl (h ▸ hmem)
          · exact Or.inr h
    · have hb : acc.any (fun s => s.document_id == c.document_id) = false := by
        rw [List.any_eq_false]
        intro s hs
        simp only [beq_iff_eq]
        intro hds
        exact hmem (List.mem_map.mpr ⟨s, hs, hds⟩)
      have hacc' : ((acc ++ [c]).map (fun s => s.document_id)).Nodup := by
        rw [List.map_append]
        rw [List.nodup_append]
        refine ⟨hacc, by simp, ?_⟩
        intro d hd
        simp only [List.map_cons, List.map_nil, List.mem_cons, List.not_mem_nil]
        intro hdc
        rcases hdc with hdc | hdc
        · exact absurd (hdc ▸ hd) hmem
        · exact hdc.elim
      obtain ⟨ihn, ihm⟩ := ih (acc ++ [c]) hacc'
      rw [dedupGo, if_neg (by simp [hb])]
      refine ⟨ihn, ?_⟩
      intro d
      rw [ihm d]
      simp only [List.map_append, List.mem_append, List.map_cons, List.map_nil,
        List.mem_cons, List.not_mem_nil, or_false, List.mem_singleton]
      tauto

/-- C5: for every input list of retrieved chunks, deduplicate_sources
produces exactly one output source per distinct document id present in the
input — the output's document ids contain no duplicate, and a document id
appears in the output exactly when some input chunk carries it.  The grouping
key is the document id, never the title: chunks with equal titles but
distinct document ids keep distinct entries, and chunks sharing a document id
collapse into one. -/
theorem deduplicate_sources_by_doc_id :
    ∀ (chunks : List RChunk),
      ((deduplicate_sources chunks).map (fun s => s.document_id)).Nodup ∧
      ∀ d, d ∈ (deduplicate_sources chunks).map (fun s => s.document_id) ↔
            d ∈ chunks.map (fun s => s.document_id) := by
  intro chunks
  obtain ⟨hn, hm⟩ := dedupGo_spec chunks [] (by simp)
  refine ⟨hn, ?_⟩
  intro d
  rw [deduplicate_sources, hm d]
  simp

/-- C6 counterexample: a retrieved chunk at cosine distance 2 (a valid value
for a cosine distance) yields relevance 1 - 2 = -1 in the response source,
which is negative — the claimed clamping to [0, 1] does not happen. -/
theorem formatSource_relevance_negative_counterex :
    (formatSource { id := 0, document_id := 0, title := [], url := [],
                    content := [], distance := 2 }).relevance = -1 ∧
    ¬ (0 ≤ (formatSource { id := 0, document_id := 0, title := [], url := [],
                           content := [], distance := 2 }).relevance) := by
  constructor
  · norm_num [formatSource]
  · norm_num [formatSource]

/-- C6 amended: every response source's relevance equals 1 minus the chunk's
similarity distance, with no clamping; it lies in [0, 1] exactly when the
distance lies in [0, 1], and is negative whenever the distance exceeds 1. -/
theorem formatSource_relevance_unclamped :
    ∀ (c : RChunk),
      (formatSource c).relevance = 1 - c.distance ∧
      ((0 ≤ (formatSource c).relevance ∧ (formatSource c).relevance ≤ 1) ↔
        (0 ≤ c.distance ∧ c.distance ≤ 1)) := by
  intro c
  refine ⟨rfl, ?_⟩
  simp only [formatSource]
  constructor
  · rintro ⟨h1, h2⟩
    constructor <;> linarith
  · rintro ⟨h1, h2⟩
    constructor <;> linarith

theorem bottomLists_eq :
    ∀ (D1 R1 D2 R2 : List ℚ),
      List.Pairwise (· ≤ ·) D1 → List.Pairwise (· ≤ ·) D2 →
      (D1 ++ R1).Perm (D2 ++ R2) →
      (∀ a ∈ D1, ∀ b ∈ R1, a ≤ b) →
      (∀ a ∈ D2, ∀ b ∈ R2, a ≤ b) →
      D1.length = D2.length → D1 = D2 := by
  intro D1
  induction D1 with
  | nil =>
    intro R1 D2 R2 _ _ _ _ _ hlen
    cases D2 with
    | nil => rfl
    | cons b D2 => simp at hlen
  | cons a D1 ih =>
    intro R1 D2 R2 hp1 hp2 hperm hc1 hc2 hlen
    cases D2 with
    | nil => simp at hlen
    | cons b D2 =>
      have ha_min : ∀ x ∈ (a :: D1) ++ R1, a ≤ x := by
        intro x hx
        rcases List.mem_append.mp hx with hx | hx
        · rcases List.mem_cons.mp hx with hx | hx
          · exact hx ▸ le_refl a
          · exact (List.pairwise_cons.mp hp1).1 x hx
        · exact hc1 a (List.mem_cons_self a D1) x hx
      have hb_min : ∀ x ∈ (b :: D2) ++ R2, b ≤ x := by
        intro x hx
        rcases List.mem_append.mp hx with hx | hx
        · rcases List.mem_cons.mp hx with hx | hx
          · exact hx ▸ le_refl b
          · exact (List.pairwise_cons.mp hp2).1 x hx
        · exact hc2 b (List.mem_cons_self b D2) x hx
      have hbL : b ∈ (a :: D1) ++ R1 := hperm.mem_iff.mpr (by simp)
      have haR : a ∈ (b :: D2) ++ R2 := hperm.mem_iff.mp (by simp)
      have heq : a = b := le_antisymm (ha_min b hbL) (hb_min a haR)
      subst heq
      have hperm' : (D1 ++ R1).Perm (D2 ++ R2) := by
        have h : (a :: (D1 ++ R1)).Perm (a :: (D2 ++ R2)) := by simpa using hperm
        exact h.cons_inv
      have htail := ih R1 D2 R2 (List.Pairwise.of_cons hp1) (List.Pairwise.of_cons hp2)
        hperm'
        (fun x hx y hy => hc1 x (List.mem_cons_of_mem a hx) y hy)
        (fun x hx y hy => hc2 x (List.mem_cons_of_mem a hx) y hy)
        (by simpa using hlen)
      rw [htail]

/-- C7 counterexample: a two-row index in which chunk 1 and chunk 2 have
equal cosine distance to the query.  Both output orders satisfy the SQL's
contract (ORDER BY distance LIMIT k has no secondary sort key), the order
with chunk 2 first violates the claimed id-ascending tie-break, and the two
valid outputs differ — so repeated retrieval against the unchanged index is
not forced to return the same order. -/
theorem vector_search_tie_order_counterex :
    isVectorSearchResult [rowA, rowB] 2 [rowB, rowA] ∧
    isVectorSearchResult [rowA, rowB] 2 [rowA, rowB] ∧
    ¬ tieOrderedById [rowB, rowA] ∧
    ([rowB, rowA] : List RChunk) ≠ [rowA, rowB] := by
  refine ⟨⟨by decide, by decide, ⟨[], ?_, by simp⟩⟩,
          ⟨by decide, by decide, ⟨[], ?_, by simp⟩⟩, ?_, by decide⟩
  · simpa using List.Perm.swap rowA rowB []
  · simp
  · intro h
    rw [tieOrderedById] at h
    have h1 := (List.chain'_cons.mp h).1
    simp [rowA, rowB] at h1

/-- C7 amended: retrieval returns at most k candidates ordered by ascending
cosine distance; the order among equal-distance candidates is not specified
(the query has no id tie-break), so two retrievals of the same query against
the unchanged index may order ties differently — only the sequence of
returned distances is determined. -/
theorem vector_search_sorted_bounded_distances :
    ∀ (table : List RChunk) (k : Nat) (r : List RChunk),
      isVectorSearchResult table k r →
      r.length ≤ k ∧
      List.Pairwise (fun a b => a.distance ≤ b.distance) r ∧
      ∀ r2, isVectorSearchResult table k r2 →
        r.map RChunk.distance = r2.map RChunk.distance := by
  intro table k r hr
  obtain ⟨hlen, hsorted, rest, hperm, hcross⟩ := hr
  refine ⟨by omega, hsorted, ?_⟩
  intro r2 hr2
  obtain ⟨hlen2, hsorted2, rest2, hperm2, hcross2⟩ := hr2
  apply bottomLists_eq (r.map RChunk.distance) (rest.map RChunk.distance)
      (r2.map RChunk.distance) (rest2.map RChunk.distance)
  · exact hsorted.map RChunk.distance (fun a b h => h)
  · exact hsorted2.map RChunk.distance (fun a b h => h)
  · have h1 := hperm.map RChunk.distance
    have h2 := hperm2.map RChunk.distance
    rw [List.map_append] at h1 h2
    exact h1.trans h2.symm
  · intro x hx y hy
    obtain ⟨ax, haxm, haxe⟩ := List.mem_map.mp hx
    obtain ⟨ay, haym, haye⟩ := List.mem_map.mp hy
    exact haxe ▸ haye ▸ hcross ax haxm ay haym
  · intro x hx y hy
    obtain ⟨ax, haxm, haxe⟩ := List.mem_map.mp hx
    obtain ⟨ay, haym, haye⟩ := List.mem_map.mp hy
    exact haxe ▸ haye ▸ hcross2 ax haxm ay haym
  · simp [hlen, hlen2]

/-- C7 witness: the amended theorem applied to the concrete two-row index and
the two valid outputs, the hypotheses discharged by computation. -/
theorem vector_search_sorted_bounded_distances_witness :
    ([rowA, rowB].map RChunk.distance) = ([rowB, rowA].map RChunk.distance) :=
  (vector_search_sorted_bounded_distances [rowA, rowB] 2 [rowA, rowB]
      ⟨by decide, by decide, ⟨[], by simp, by simp⟩⟩).2.2 [rowB, rowA]
    ⟨by decide, by decide, ⟨[], by simpa using List.Perm.swap rowA rowB [], by simp⟩⟩

theorem dupReplaceF_of_not_match :
    ∀ (fuel : Nat) (s : List Char) (prev : Bool),
      hasDupMatch s prev = false → dupReplaceF fuel s prev = s := by
  intro fuel
  induction fuel with
  | zero => intro s prev _; rfl
  | succ fuel ih =>
    intro s prev hnm
    cases s with
    | nil => rfl
    | cons c rest =>
      by_cases hcond : (!prev && isWordChar c) = true
      · cases hm : tryMatchAt (c :: rest) with
        | some pr =>
          rw [hasDupMatch, if_pos hcond, hm] at hnm
          exact absurd hnm (by simp)
        | none =>
          rw [hasDupMatch, if_pos hcond, hm] at hnm
          rw [dupReplaceF, if_pos hcond, hm, ih rest (isWordChar c) hnm]
      · have hcond' : (!prev && isWordChar c) = false := by
          revert hcond
          cases (!prev && isWordChar c) <;> simp
        rw [hasDupMatch, if_neg (by simp [hcond'])] at hnm
        rw [dupReplaceF, if_neg (by simp [hcond']), ih rest (isWordChar c) hnm]

/-- C8 counterexample: the duplicate-word collapse is not idempotent.  On
"a a a" the regex matches the first "a a" (the back-reference cannot cross
the following space), leaving "a a", which a second application collapses to
"a": cleanText (cleanText "a a a") = "a" while cleanText "a a a" = "a a". -/
theorem cleanText_not_idempotent_counterex :
    cleanText (cleanText "a a a".data) ≠ cleanText "a a a".data := by
  decide

theorem stripCopiesF_some_len :
    ∀ (fuel : Nat) (w s after : List Char),
      stripCopiesF fuel w s = some after → after.length + w.length ≤ s.length := by
  intro fuel
  induction fuel with
  | zero => intro w s after h; simp [stripCopiesF] at h
  | succ fuel ih =>
    intro w s after h
    rw [stripCopiesF] at h
    by_cases hw : w.isEmpty = true
    · rw [if_pos hw] at h
      simp at h
    · rw [if_neg hw] at h
      cases hsp : stripPre w s with
      | none =>
        simp only [hsp] at h
        exact Option.noConfusion h
      | some s' =>
        simp only [hsp] at h
        have hs : s = w ++ s' := stripPre_eq_some.mp hsp
        have hlen : s.length = w.length + s'.length := by simp [hs]
        cases hrec : stripCopiesF fuel w s' with
        | some r =>
          simp only [hrec, Option.some.injEq] at h
          subst h
          have := ih w s' _ hrec
          omega
        | none =>
          simp only [hrec] at h
          by_cases hb : boundaryAfter s' = true
          · rw [if_pos hb] at h
            simp only [Option.some.injEq] at h
            subst h
            omega
          · rw [if_neg hb] at h
            simp at h

theorem tryMatchAt_some_len :
    ∀ (s w after : List Char), tryMatchAt s = some (w, after) →
      1 ≤ w.length ∧ w.length + after.length + 2 ≤ s.length := by
  intro s w after h
  simp only [tryMatchAt] at h
  by_cases hw : (s.takeWhile isWordChar).isEmpty = true
  · rw [if_pos hw] at h
    simp at h
  · rw [if_neg hw] at h
    by_cases hsp : ((s.dropWhile isWordChar).takeWhile isSpaceChar).isEmpty = true
    · rw [if_pos hsp] at h
      simp at h
    · rw [if_neg hsp] at h
      cases hsc : stripCopiesF ((s.dropWhile isWordChar).dropWhile isSpaceChar).length
          (s.takeWhile isWordChar) ((s.dropWhile isWordChar).dropWhile isSpaceChar) with
      | none => rw [hsc] at h; simp at h
      | some a =>
        rw [hsc] at h
        simp only [Option.some.injEq, Prod.mk.injEq] at h
        obtain ⟨hww, haa⟩ := h
        subst hww
        subst haa
        have hlen1 : (s.takeWhile isWordChar).length + (s.dropWhile isWordChar).length
            = s.length := by
          rw [← List.length_append, List.takeWhile_append_dropWhile]
        have hlen2 : ((s.dropWhile isWordChar).takeWhile isSpaceChar).length
            + ((s.dropWhile isWordChar).dropWhile isSpaceChar).length
            = (s.dropWhile isWordChar).length := by
          rw [← List.length_append, List.takeWhile_append_dropWhile]
        have h3 := stripCopiesF_some_len _ _ _ _ hsc
        have hw1 : 1 ≤ (s.takeWhile isWordChar).length := by
          cases htw : s.takeWhile isWordChar with
          | nil => rw [htw] at hw; simp at hw
          | cons x xs => simp
        have hsp1 : 1 ≤ ((s.dropWhile isWordChar).takeWhile isSpaceChar).length := by
          cases htw : (s.dropWhile isWordChar).takeWhile isSpaceChar with
          | nil => rw [htw] at hsp; simp at hsp
          | cons x xs => simp
        exact ⟨hw1, by omega⟩

theorem dupReplaceF_length_le :
    ∀ (fuel : Nat) (s : List Char) (prev : Bool),
      (dupReplaceF fuel s prev).length ≤ s.length := by
  intro fuel
  induction fuel with
  | zero => intro s prev; exact Nat.le_refl s.length
  | succ fuel ih =>
    intro s prev
    cases s with
    | nil => simp [dupReplaceF]
    | cons c rest =>
      by_cases hcond : (!prev && isWordChar c) = true
      · cases hm : tryMatchAt (c :: rest) with
        | some pr =>
          obtain ⟨w, after⟩ := pr
          rw [dupReplaceF, if_pos hcond, hm]
          obtain ⟨hw1, hlen⟩ := tryMatchAt_some_len (c :: rest) w after hm
          have hrec := ih after true
          simp only [List.length_append]
          omega
        | none =>
          rw [dupReplaceF, if_pos hcond, hm]
          have hrec := ih rest (isWordChar c)
          simp only [List.length_cons]
          omega
      · rw [dupReplaceF, if_neg hcond]
        have hrec := ih rest (isWordChar c)
        simp only [List.length_cons]
        omega

theorem dupReplaceF_shrinks_of_match :
    ∀ (fuel : Nat) (s : List Char) (prev : Bool), s.length ≤ fuel →
      hasDupMatch s prev = true → (dupReplaceF fuel s prev).length < s.length := by
  intro fuel
  induction fuel with
  | zero =>
    intro s prev hlen hm
    cases s with
    | nil => simp [hasDupMatch] at hm
    | cons c rest => simp at hlen
  | succ fuel ih =>
    intro s prev hlen hm
    cases s with
    | nil => simp [hasDupMatch] at hm
    | cons c rest =>
      by_cases hcond : (!prev && isWordChar c) = true
      · cases hmt : tryMatchAt (c :: rest) with
        | some pr =>
          obtain ⟨w, after⟩ := pr
          rw [dupReplaceF, if_pos hcond, hmt]
          obtain ⟨hw1, hl⟩ := tryMatchAt_some_len (c :: rest) w after hmt
          have hrec := dupReplaceF_length_le fuel after true
          simp only [List.length_append]
          omega
        | none =>
          rw [dupReplaceF, if_pos hcond, hmt]
          rw [hasDupMatch, if_pos hcond, hmt] at hm
          have hrec := ih rest (isWordChar c) (by simp at hlen; omega) hm
          simp only [List.length_cons]
          omega
      · rw [dupReplaceF, if_neg hcond]
        rw [hasDupMatch, if_neg hcond] at hm
        have hrec := ih rest (isWordChar c) (by simp at hlen; omega) hm
        simp only [List.length_cons]
        omega

/-- C8 amended: the duplicate-word collapse is not idempotent in general (the
back-reference matches only consecutive copies of the captured word, so one
pass can leave new adjacent duplicates behind: "a a a" cleans to "a a", which
cleans to "a").  A second application returns the first application's output
unchanged precisely when that output contains no remaining match of the
duplicate-word pattern; when a match remains, the second application strictly
shortens the text. -/
theorem cleanText_idempotent_iff_no_match :
    ∀ (s : List Char),
      (cleanText (cleanText s) = cleanText s ↔ hasDupMatch (cleanText s) false = false) ∧
      (hasDupMatch (cleanText s) false = true →
        (cleanText (cleanText s)).length < (cleanText s).length) := by
  intro s
  have hshrink : hasDupMatch (cleanText s) false = true →
      (cleanText (cleanText s)).length < (cleanText s).length := by
    intro h
    exact dupReplaceF_shrinks_of_match (cleanText s).length (cleanText s) false
      (Nat.le_refl _) h
  refine ⟨⟨?_, ?_⟩, hshrink⟩
  · intro heq
    cases hh : hasDupMatch (cleanText s) false with
    | false => rfl
    | true =>
      have hlt := hshrink hh
      rw [heq] at hlt
      exact absurd hlt (lt_irrefl _)
  · intro h
    exact dupReplaceF_of_not_match (cleanText s).length (cleanText s) false h

/-- C8 witness: the amended theorem's shrink clause applied to "a a a", whose
cleaned form "a a" still contains a match, with the hypothesis discharged by
computation. -/
theorem cleanText_idempotent_iff_no_match_witness :
    (cleanText (cleanText "a a a".data)).length < (cleanText "a a a".data).length :=
  (cleanText_idempotent_iff_no_match "a a a".data).2 (by decide)

/-- C9: for every excerpt, the SourceCard cleaner returns at most 153
characters: the ERCOT-collapsed excerpt itself when it has at most 150
characters, and otherwise exactly its first 150 characters followed by
"...". -/
theorem cleanExcerpt_bounded :
    ∀ (s : List Char),
      (cleanExcerpt s).length ≤ 153 ∧
      ((ercotCollapseF s.length s).length ≤ 150 →
        cleanExcerpt s = ercotCollapseF s.length s) ∧
      (150 < (ercotCollapseF s.length s).length →
        cleanExcerpt s = (ercotCollapseF s.length s).take 150 ++ ['.', '.', '.']) := by
  intro s
  by_cases h : 150 < (ercotCollapseF s.length s).length
  · refine ⟨?_, fun hle => absurd h (by omega), fun _ => ?_⟩
    · rw [cleanExcerpt]
      simp only [if_pos h, List.length_append, List.length_take, List.length_cons,
        List.length_nil]
      omega
    · rw [cleanExcerpt]
      simp only [if_pos h]
  · refine ⟨?_, fun _ => ?_, fun hlt => absurd hlt h⟩
    · rw [cleanExcerpt]
      simp only [if_neg h]
      omega
    · rw [cleanExcerpt]
      simp only [if_neg h]

set_option maxRecDepth 8192 in
/-- C9 witness: the theorem applied to a 160-character excerpt, where the
truncating branch fires. -/
theorem cleanExcerpt_bounded_witness :
    (cleanExcerpt (List.replicate 160 'x')).length ≤ 153 ∧
    cleanExcerpt (List.replicate 160 'x')
      = (ercotCollapseF (List.replicate 160 'x').length (List.replicate 160 'x')).take 150
        ++ ['.', '.', '.'] :=
  ⟨(cleanExcerpt_bounded (List.replicate 160 'x')).1,
   (cleanExcerpt_bounded (List.replicate 160 'x')).2.2 (by decide)⟩

theorem endsWithL_append_self (s p : List Char) :
    endsWithL p (s ++ p) = true := by
  rw [endsWithL, List.reverse_append]
  exact startsWithL_self_append p.reverse s.reverse

theorem ensureWrap_spec :
    ∀ (s : List Char),
      startsWithL pOpen (ensureWrap s) = true ∧
      endsWithL pClose (ensureWrap s) = true := by
  intro s
  have key : ∀ t : List Char, startsWithL pOpen t = true →
      startsWithL pOpen (if endsWithL pClose t then t else t ++ pClose) = true ∧
      endsWithL pClose (if endsWithL pClose t then t else t ++ pClose) = true := by
    intro t ht
    by_cases h2 : endsWithL pClose t = true
    · rw [if_pos h2]
      exact ⟨ht, h2⟩
    · rw [if_neg h2]
      exact ⟨startsWithL_append_right pClose ht, endsWithL_append_self t pClose⟩
  have hstart : startsWithL pOpen (if startsWithL pOpen s then s else pOpen ++ s) = true := by
    by_cases h1 : startsWithL pOpen s = true
    · rw [if_pos h1]
      exact h1
    · rw [if_neg h1]
      exact startsWithL_self_append pOpen s
  have h := key _ hstart
  simpa only [ensureWrap] using h

theorem trimChars_of_wrapped :
    ∀ (t : List Char), startsWithL pOpen t = true → endsWithL pClose t = true →
      trimChars t = t := by
  intro t h1 h2
  have e1 : ∃ r, stripPre pOpen t = some r := by
    simpa [startsWithL, Option.isSome_iff_exists] using h1
  obtain ⟨r, hr⟩ := e1
  have ht : t = pOpen ++ r := stripPre_eq_some.mp hr
  have e2 : ∃ r2, stripPre pClose.reverse t.reverse = some r2 := by
    simpa [endsWithL, startsWithL, Option.isSome_iff_exists] using h2
  obtain ⟨r2, hr2⟩ := e2
  have ht2 : t.reverse = pClose.reverse ++ r2 := stripPre_eq_some.mp hr2
  have hsp1 : isSpaceChar '<' = false := by decide
  have hsp2 : isSpaceChar '>' = false := by decide
  have hd1 : t.dropWhile isSpaceChar = t := by
    conv_lhs => rw [ht]
    rw [ht]
    simp [pOpen, List.dropWhile_cons, hsp1]
  have hd2 : t.reverse.dropWhile isSpaceChar = t.reverse := by
    conv_lhs => rw [ht2]
    rw [ht2]
    simp [pClose, List.dropWhile_cons, hsp2]
  rw [trimChars, hd1, hd2, List.reverse_reverse]

theorem wrapped_after_trim (x : List Char) :
    startsWithL pOpen (trimChars (ensureWrap x)) = true ∧
    endsWithL pClose (trimChars (ensureWrap x)) = true := by
  obtain ⟨h1, h2⟩ := ensureWrap_spec x
  rw [trimChars_of_wrapped (ensureWrap x) h1 h2]
  exact ⟨h1, h2⟩

/-- C10: for every input string, including the empty string, both versions of
formatAnswerContent (src/unnamed/part_001 and src/unnamed/part_004) return a
string that starts with "<p>" and ends with "</p>". -/
theorem formatAnswerContent_p_wrapped :
    ∀ (s : List Char),
      (startsWithL pOpen (formatAnswerContent_v1 s) = true ∧
        endsWithL pClose (formatAnswerContent_v1 s) = true) ∧
      (startsWithL pOpen (formatAnswerContent_v4 s) = true ∧
        endsWithL pClose (formatAnswerContent_v4 s) = true) := by
  intro s
  constructor
  · exact wrapped_after_trim _
  · exact ensureWrap_spec _
